import Mathlib

/-!
Verification of the bounded-size text chunker with overlap used by
`src/app.py`, and of the ZIP chapter extractor `extract_chapters_from_zip`.

Texts are embedded as `List Char`.  The configured length metric of the
program is character count (`LENGTH_FUNCTION_CHOICE = "Characters"`,
`length_function = len` in `src/app.py`), embedded as `List.length`.

The splitting algorithm itself lives in the `langchain` dependency and is
not part of the repository sources; it is modelled from the specification's
description of the recursive structural splitting algorithm (spec §4.1) and
of the flat single-separator mode.  The dispatch in `split_text`, the
constants, the `PREFIX` wrapping and `extract_chapters_from_zip` are
translated directly from `src/app.py`.
-/

namespace NovelistChunker

/-- Boolean test that `sep` occurs somewhere in `text` (substring
occurrence).  The empty separator occurs in every text. -/
def containsSeq (sep : List Char) : List Char → Bool
  | [] => sep.isEmpty
  | c :: rest => sep.isPrefixOf (c :: rest) || containsSeq sep rest

/-- Worker for splitting on a non-empty separator `s :: tl`: scan the text,
accumulate the current piece in `cur`, and at each occurrence of the
separator close the piece with the separator re-attached (spec §4.1 step 1:
"split `text` into pieces on every occurrence of `sep`, re-attaching `sep`
to each piece except possibly the last"). -/
def splitOnSepGo (s : Char) (tl : List Char) (cur : List Char) :
    List Char → List (List Char)
  | [] => [cur]
  | c :: rest =>
    if (s :: tl).isPrefixOf (c :: rest) then
      (cur ++ s :: tl) :: splitOnSepGo s tl [] (rest.drop tl.length)
    else
      splitOnSepGo s tl (cur ++ [c]) rest
  termination_by text => text.length
  decreasing_by
    · simp only [List.length_drop, List.length_cons]; omega
    · simp only [List.length_cons]; omega

/-- Split `text` on every occurrence of `sep`, re-attaching the separator to
the left piece.  The empty separator means "split anywhere" (spec §3):
the text is cut into its individual characters. -/
def splitOnSep (sep : List Char) (text : List Char) : List (List Char) :=
  match sep with
  | [] => text.map (fun c => [c])
  | s :: tl => splitOnSepGo s tl [] text

/-- Modelled from the spec: the hard-cut fallback of §4.1 step 2 — "fall
back to splitting on raw index positions of `length_metric`-defined units
(hard character/token cut)".  With the character metric this cuts the text
into consecutive slices of `csize` characters. -/
def hardCut (csize : Nat) : List Char → List (List Char)
  | [] => []
  | c :: rest => (c :: rest.take (csize - 1)) :: hardCut csize (rest.drop (csize - 1))
  termination_by l => l.length
  decreasing_by simp only [List.length_drop, List.length_cons]; omega

/-- Modelled from the spec: steps 1–2 of the recursive structural splitting
algorithm (§4.1).  The separators are tried in priority order; the first one
occurring in the text splits it, every piece whose measured length is within
`csize` is atomic, every oversized piece recurses with the remaining
separators, and when no separator remains the hard cut is applied.  The
result is the ordered list of atomic pieces. -/
def atomize (csize : Nat) : List (List Char) → List Char → List (List Char)
  | [], text => if text.length ≤ csize then [text] else hardCut csize text
  | sep :: rest, text =>
    if containsSeq sep text then
      (splitOnSep sep text).flatMap fun p =>
        if p.length ≤ csize then [p] else atomize csize rest p
    else
      atomize csize rest text

/-- Modelled from the spec: steps 3–4 of §4.1 — greedily merge consecutive
atomic pieces into a running buffer; keep appending the next piece while the
measured length of buffer plus piece stays within `csize`; when appending
would exceed the bound, close the buffer as one output chunk and seed the
new buffer with the trailing slice of the just-closed chunk whose measured
length is the largest value ≤ `ov` (the overlap window), then append the
piece.  The final buffer is emitted as the last chunk if non-empty. -/
def mergeGo (csize ov : Nat) (buf : List Char) :
    List (List Char) → List (List Char)
  | [] => if buf.isEmpty then [] else [buf]
  | p :: rest =>
    if (buf ++ p).length ≤ csize then
      mergeGo csize ov (buf ++ p) rest
    else
      buf :: mergeGo csize ov (buf.drop (buf.length - ov) ++ p) rest

/-- Modelled from the spec: the full recursive structural splitting
algorithm of §4.1 — atomize (steps 1–2) then merge with overlap
(steps 3–4). -/
def splitChunks (csize ov : Nat) (seps : List (List Char)) (text : List Char) :
    List (List Char) :=
  mergeGo csize ov [] (atomize csize seps text)

/-- Remove from each chunk after the first the overlap region it shares with
the chunk before it: the algorithm seeds each later chunk with the trailing
slice of the previous chunk of measured length `min ov (previous length)`,
so exactly that many leading characters are dropped. -/
def deoverlapGo (ov : Nat) (prev : List Char) : List (List Char) → List Char
  | [] => []
  | c :: cs => c.drop (min ov prev.length) ++ deoverlapGo ov c cs

/-- Concatenate chunks after removing the overlap regions between each
consecutive pair. -/
def deoverlap (ov : Nat) : List (List Char) → List Char
  | [] => []
  | c :: cs => c ++ deoverlapGo ov c cs

/-- The overlap relation between two consecutive chunks: the leading
`min ov (length of the previous chunk)` characters of the later chunk are a
trailing slice of the previous chunk. -/
def SharesOverlap (ov : Nat) (c c' : List Char) : Prop :=
  c'.take (min ov c.length) <:+ c

/-- The splitting configuration (spec §3): maximum measured chunk length and
overlap.  The length metric is fixed to character count, the metric the
program configures (`length_function = len`). -/
structure SplitConfig where
  chunk_size : Nat
  chunk_overlap : Nat
deriving DecidableEq

/-- Errors of the splitting layer.  `invalidConfiguration` is the
configuration-time error of the spec's error taxonomy (§7);
`unboundLocalError` models the Python `UnboundLocalError` raised at
`src/app.py:94` when the dispatch in `split_text` matched no branch and the
local variable `splitter` was never assigned. -/
inductive SplitError
  | invalidConfiguration
  | unboundLocalError
deriving DecidableEq

/-- Modelled from the spec: the chunker contract of §4.1 with the validation
of §7 — `split` fails with `InvalidConfiguration` when
`chunk_overlap ≥ chunk_size` or `chunk_size ≤ 0`, and otherwise runs the
recursive structural splitting algorithm.  (With natural-number sizes,
`chunk_overlap < chunk_size` already forces `chunk_size > 0`.) -/
def split (cfg : SplitConfig) (seps : List (List Char)) (text : List Char) :
    Except SplitError (List (List Char)) :=
  if cfg.chunk_overlap < cfg.chunk_size then
    .ok (splitChunks cfg.chunk_size cfg.chunk_overlap seps text)
  else
    .error .invalidConfiguration

/-- `CHUNK_SIZE = 1950` (src/app.py:15). -/
def CHUNK_SIZE : Nat := 1950

/-- `CHUNK_OVERLAP = 10` (src/app.py:16). -/
def CHUNK_OVERLAP : Nat := 10

/-- `SPLITTER_CHOICE = "Character"` (src/app.py:18). -/
def SPLITTER_CHOICE : List Char := "Character".toList

/-- `PREFIX` (src/app.py:19). -/
def PREFIX : List Char :=
  "translate following text from chinese to english\n".toList

/-- Modelled from the spec: the default separator priority of the recursive
splitter — paragraph break, line break, space, and the empty separator
meaning "split anywhere" (spec §3). -/
def RECURSIVE_SEPARATORS : List (List Char) :=
  ["\n\n".toList, "\n".toList, " ".toList, []]

/-- Python's `str.split(sep)` for a one-character separator: the separator
is dropped and empty fields are kept. -/
def pySplit (sep : Char) : List Char → List (List Char)
  | [] => [[]]
  | c :: rest =>
    if c = sep then [] :: pySplit sep rest
    else
      match pySplit sep rest with
      | [] => [[c]]
      | piece :: pieces => (c :: piece) :: pieces

/-- Modelled from the spec: the lookup from a language tag to its separator
priority list ("a lookup from tag to an ordered separator list", spec §4.1);
unknown tags are rejected ("reject unknown tags at configuration-build
time", spec §9).  Used by the `Language.*` branch of `split_text`. -/
def languageSeparators (lang : List Char) : Option (List (List Char)) :=
  if lang = "english".toList then some RECURSIVE_SEPARATORS
  else if lang = "chinese".toList then some RECURSIVE_SEPARATORS
  else none

/-- `split_text` (src/app.py:71–95), with the module constant
`SPLITTER_CHOICE` as an explicit argument.  The dispatch tries
`"Character"` (flat `CharacterTextSplitter` on the single separator
`"\n\n"`), `"RecursiveCharacter"`, and any choice containing the substring
`"Language."`; when no branch matches, the local `splitter` is never
assigned and the call `splitter.split_text(text)` at src/app.py:94 raises
`UnboundLocalError`.  Every returned chunk is prefixed with `PREFIX`
(src/app.py:95). -/
def split_text (choice : List Char) (text : List Char) :
    Except SplitError (List (List Char)) :=
  if choice = "Character".toList then
    .ok ((mergeGo CHUNK_SIZE CHUNK_OVERLAP []
      (splitOnSep "\n\n".toList text)).map (PREFIX ++ ·))
  else if choice = "RecursiveCharacter".toList then
    .ok ((splitChunks CHUNK_SIZE CHUNK_OVERLAP RECURSIVE_SEPARATORS text).map
      (PREFIX ++ ·))
  else if containsSeq "Language.".toList choice then
    match languageSeparators (((pySplit '.' choice).getD 1 []).map Char.toLower) with
    | some seps =>
      .ok ((splitChunks CHUNK_SIZE CHUNK_OVERLAP seps text).map (PREFIX ++ ·))
    | none => .error .invalidConfiguration
  else
    .error .unboundLocalError

end NovelistChunker

namespace NovelistZip

/-- One entry of a ZIP archive: its file name and its decoded text content.
Entries are listed in archive order, as `zipfile.ZipFile.namelist` returns
them. -/
structure ZipEntry where
  name : List Char
  content : List Char

/-- `f.lower().endswith(".txt")` (src/app.py:61): case-insensitive test for
the `.txt` suffix. -/
def isTxtName (n : List Char) : Bool :=
  ".txt".toList.isSuffixOf (n.map Char.toLower)

/-- `z.open(filename)` followed by reading and decoding (src/app.py:63–67):
the content of the first archive entry bearing the given name. -/
def zipOpen (entries : List ZipEntry) (n : List Char) : List Char :=
  match entries.find? (fun e => e.name = n) with
  | some e => e.content
  | none => []

/-- The sorted list of `.txt` member names,
`sorted([f for f in z.namelist() if f.lower().endswith(".txt")])`
(src/app.py:61).  Python sorts strings in ascending lexicographic
(code-point) order. -/
def txtFiles (entries : List ZipEntry) : List (List Char) :=
  ((entries.map (·.name)).filter isTxtName).mergeSort

/-- `extract_chapters_from_zip` (src/app.py:55–69): one chapter per `.txt`
member name, in sorted name order. -/
def extract_chapters_from_zip (entries : List ZipEntry) : List (List Char) :=
  (txtFiles entries).map (zipOpen entries)

end NovelistZip

namespace NovelistChunker

theorem splitOnSepGo_flatten (s : Char) (tl : List Char) :
    ∀ (text cur : List Char), (splitOnSepGo s tl cur text).flatten = cur ++ text
  | [], cur => by simp [splitOnSepGo]
  | c :: rest, cur => by
    rw [splitOnSepGo]
    split
    · next h =>
      have hpre : (s :: tl) <+: (c :: rest) := by
        simpa using h
      obtain ⟨t2, ht2⟩ := hpre
      have hcs := (List.cons_eq_cons).mp (by simpa using ht2.symm)
      have hrest : rest = tl ++ t2 := hcs.2
      have hdrop : rest.drop tl.length = t2 := by
        rw [hrest, List.drop_left]
      rw [List.flatten_cons, splitOnSepGo_flatten s tl (rest.drop tl.length) []]
      rw [hdrop, hrest]
      simp
      exact hcs.1.symm
    · rw [splitOnSepGo_flatten s tl rest (cur ++ [c])]
      simp
  termination_by text _ => text.length
  decreasing_by
    all_goals simp only [List.length_drop, List.length_cons]; omega

/-- Concatenating the pieces of `splitOnSep` restores the text. -/
theorem splitOnSep_flatten (sep text : List Char) :
    (splitOnSep sep text).flatten = text := by
  match sep with
  | [] =>
    simp only [splitOnSep]
    induction text with
    | nil => rfl
    | cons c rest ih => simp [ih]
  | s :: tl =>
    simpa using splitOnSepGo_flatten s tl text []

theorem hardCut_flatten (csize : Nat) :
    ∀ l : List Char, (hardCut csize l).flatten = l
  | [] => by simp [hardCut]
  | c :: rest => by
    rw [hardCut, List.flatten_cons, hardCut_flatten csize (rest.drop (csize - 1))]
    simp
  termination_by l => l.length
  decreasing_by simp only [List.length_drop, List.length_cons]; omega

theorem hardCut_length_le (csize : Nat) (h1 : 1 ≤ csize) :
    ∀ l : List Char, ∀ p ∈ hardCut csize l, p.length ≤ csize
  | [], p, hp => by simp [hardCut] at hp
  | c :: rest, p, hp => by
    rw [hardCut] at hp
    rcases List.mem_cons.mp hp with h | h
    · subst h
      simp only [List.length_cons, List.length_take]
      omega
    · exact hardCut_length_le csize h1 (rest.drop (csize - 1)) p h
  termination_by l => l.length
  decreasing_by simp only [List.length_drop, List.length_cons]; omega

theorem flatten_flatMap_of (f : List Char → List (List Char))
    (hf : ∀ p, (f p).flatten = p) :
    ∀ pieces : List (List Char), (pieces.flatMap f).flatten = pieces.flatten := by
  intro pieces
  induction pieces with
  | nil => simp
  | cons p ps ih => rw [List.flatMap_cons, List.flatten_append, ih, hf, List.flatten_cons]

theorem atomize_flatten (csize : Nat) :
    ∀ (seps : List (List Char)) (text : List Char),
      (atomize csize seps text).flatten = text
  | [], text => by
    rw [atomize]
    split
    · simp
    · exact hardCut_flatten csize text
  | sep :: rest, text => by
    rw [atomize]
    split
    · have hf : ∀ p : List Char,
          ((if p.length ≤ csize then [p] else atomize csize rest p) :
            List (List Char)).flatten = p := by
        intro p
        split
        · simp
        · exact atomize_flatten csize rest p
      rw [flatten_flatMap_of _ hf (splitOnSep sep text), splitOnSep_flatten]
    · exact atomize_flatten csize rest text

theorem atomize_length_le (csize : Nat) (h1 : 1 ≤ csize) :
    ∀ (seps : List (List Char)) (text : List Char),
      ∀ p ∈ atomize csize seps text, p.length ≤ csize
  | [], text, p, hp => by
    rw [atomize] at hp
    split at hp
    · next h => rw [List.mem_singleton.mp hp]; exact h
    · exact hardCut_length_le csize h1 text p hp
  | sep :: rest, text, p, hp => by
    rw [atomize] at hp
    split at hp
    · obtain ⟨q, _, hq2⟩ := List.mem_flatMap.mp hp
      by_cases hle : q.length ≤ csize
      · simp only [if_pos hle, List.mem_singleton] at hq2
        rw [hq2]; exact hle
      · simp only [if_neg hle] at hq2
        exact atomize_length_le csize h1 rest q p hq2
    · exact atomize_length_le csize h1 rest text p hp

theorem length_drop_overlap (b : List Char) (ov : Nat) :
    (b.drop (b.length - ov)).length = min ov b.length := by
  rw [List.length_drop]
  omega

theorem deoverlapGo_mergeGo (csize ov : Nat) :
    ∀ (pieces : List (List Char)) (prev t : List Char),
      deoverlapGo ov prev
        (mergeGo csize ov (prev.drop (prev.length - ov) ++ t) pieces) =
      t ++ pieces.flatten
  | [], prev, t => by
    rw [mergeGo]
    split
    · next h =>
      have : t = [] := by
        rcases List.append_eq_nil.mp (List.isEmpty_iff.mp h) with ⟨_, ht⟩
        exact ht
      simp [deoverlapGo, this]
    · rw [deoverlapGo, deoverlapGo, ← length_drop_overlap prev ov,
        List.drop_left]
      simp
  | p :: rest, prev, t => by
    rw [mergeGo]
    split
    · rw [List.append_assoc] at *
      rw [deoverlapGo_mergeGo csize ov rest prev (t ++ p)]
      simp
    · rw [deoverlapGo, ← length_drop_overlap prev ov, List.drop_left,
        deoverlapGo_mergeGo csize ov rest (prev.drop (prev.length - ov) ++ t) p]
      simp

theorem deoverlap_mergeGo (csize ov : Nat) :
    ∀ (pieces : List (List Char)) (b : List Char),
      deoverlap ov (mergeGo csize ov b pieces) = b ++ pieces.flatten
  | [], b => by
    rw [mergeGo]
    split
    · next h => simp [deoverlap, List.isEmpty_iff.mp h]
    · simp [deoverlap, deoverlapGo]
  | p :: rest, b => by
    rw [mergeGo]
    split
    · rw [deoverlap_mergeGo csize ov rest (b ++ p)]
      simp
    · rw [deoverlap, deoverlapGo_mergeGo csize ov rest b p]
      simp

theorem mergeGo_length_le (csize ov : Nat) :
    ∀ (pieces : List (List Char)) (b : List Char),
      (∀ p ∈ pieces, p.length ≤ csize) → b.length ≤ csize + ov →
      ∀ c ∈ mergeGo csize ov b pieces, c.length ≤ csize + ov
  | [], b, _, hb, c, hc => by
    rw [mergeGo] at hc
    split at hc
    · simp at hc
    · rw [List.mem_singleton.mp hc]; exact hb
  | p :: rest, b, hp, hb, c, hc => by
    rw [mergeGo] at hc
    split at hc
    · next h =>
      exact mergeGo_length_le csize ov rest (b ++ p)
        (fun q hq => hp q (List.mem_cons_of_mem p hq)) (le_trans h (by omega)) c hc
    · rcases List.mem_cons.mp hc with h | h
      · rw [h]; exact hb
      · refine mergeGo_length_le csize ov rest _ (fun q hq => hp q (List.mem_cons_of_mem p hq)) ?_ c h
        have h1 : (b.drop (b.length - ov)).length ≤ ov := by
          rw [length_drop_overlap]; omega
        have h2 : p.length ≤ csize := hp p (List.mem_cons_self p rest)
        simp only [List.length_append]
        omega

theorem mergeGo_isInfix (csize ov : Nat) (T : List Char) :
    ∀ (pieces : List (List Char)) (b : List Char),
      (b ++ pieces.flatten) <:+ T →
      ∀ c ∈ mergeGo csize ov b pieces, c <:+: T
  | [], b, hsuf, c, hc => by
    rw [mergeGo] at hc
    split at hc
    · simp at hc
    · rw [List.mem_singleton.mp hc]
      exact List.IsSuffix.isInfix (by simpa using hsuf)
  | p :: rest, b, hsuf, c, hc => by
    rw [mergeGo] at hc
    split at hc
    · refine mergeGo_isInfix csize ov T rest (b ++ p) ?_ c hc
      simpa [List.append_assoc] using hsuf
    · rcases List.mem_cons.mp hc with h | h
      · subst h
        obtain ⟨u, hu⟩ := hsuf
        exact ⟨u, (p :: rest).flatten, by rw [← hu]; simp⟩
      · refine mergeGo_isInfix csize ov T rest (b.drop (b.length - ov) ++ p) ?_ c h
        refine List.IsSuffix.trans ?_ hsuf
        obtain ⟨u, hu⟩ := List.drop_suffix (b.length - ov) b
        exact ⟨u, by rw [← List.append_assoc, ← List.append_assoc, hu]; simp⟩

theorem mergeGo_small (csize ov : Nat) :
    ∀ (pieces : List (List Char)) (b : List Char),
      (b ++ pieces.flatten).length ≤ csize →
      mergeGo csize ov b pieces =
        if b ++ pieces.flatten = [] then [] else [b ++ pieces.flatten]
  | [], b, _ => by
    rw [mergeGo]
    simp [List.isEmpty_iff]
  | p :: rest, b, hlen => by
    rw [mergeGo]
    have hfit : (b ++ p).length ≤ csize := by
      have : (b ++ p).length ≤ (b ++ (p :: rest).flatten).length := by
        simp only [List.length_append, List.flatten_cons]
        omega
      omega
    rw [if_pos hfit, mergeGo_small csize ov rest (b ++ p) (by simpa [List.append_assoc] using hlen)]
    simp [List.append_assoc]

theorem mergeGo_chain (csize ov : Nat) :
    ∀ (pieces : List (List Char)) (b : List Char),
      List.Chain' (SharesOverlap ov) (mergeGo csize ov b pieces) ∧
      ∀ c ∈ (mergeGo csize ov b pieces).head?, b <+: c
  | [], b => by
    rw [mergeGo]
    split
    · simp
    · simp [List.head?]
  | p :: rest, b => by
    rw [mergeGo]
    split
    · obtain ⟨hchain, hhead⟩ := mergeGo_chain csize ov rest (b ++ p)
      refine ⟨hchain, fun c hc => ?_⟩
      exact ((b.prefix_append p).trans (hhead c hc))
    · obtain ⟨hchain, hhead⟩ := mergeGo_chain csize ov rest (b.drop (b.length - ov) ++ p)
      constructor
      · refine List.chain'_cons'.mpr ⟨?_, hchain⟩
        intro c' hc'
        have hpre : (b.drop (b.length - ov) ++ p) <+: c' := hhead c' hc'
        have htake : c'.take (min ov b.length) = b.drop (b.length - ov) := by
          obtain ⟨t, ht⟩ := hpre
          rw [← ht, ← length_drop_overlap b ov, List.append_assoc, List.take_left]
        rw [SharesOverlap, htake]
        exact List.drop_suffix _ b
      · intro c hc
        simp only [List.head?_cons, Option.mem_some_iff] at hc
        rw [← hc]

end NovelistChunker

namespace NovelistChunker

unseal splitOnSepGo hardCut in
/-- C1: the claim "every chunk in the sequence returned by split has
measured length ≤ chunk_size in recursive mode" is false on the algorithm
described by the spec: with the valid configuration chunk_size = 5,
chunk_overlap = 3 and input "aaaaa\n\nbbbbb", the last chunk produced by
the recursive splitter has length 8 > 5 (the overlap seed of step 3 is
prepended to the next piece with no renewed bound check). -/
theorem C1_claim_counterexample :
    (0 < 5 ∧ 3 < 5) ∧
    split ⟨5, 3⟩ RECURSIVE_SEPARATORS "aaaaa\n\nbbbbb".toList =
      .ok (splitChunks 5 3 RECURSIVE_SEPARATORS "aaaaa\n\nbbbbb".toList) ∧
    ¬ (∀ c ∈ splitChunks 5 3 RECURSIVE_SEPARATORS "aaaaa\n\nbbbbb".toList,
        c.length ≤ 5) :=
  ⟨by decide, rfl, by decide⟩

/-- C1 (amended): for every valid configuration, every separator priority
list and every input text, every chunk returned by the recursive splitter
has measured length at most chunk_size + chunk_overlap. -/
theorem C1_amended_size_bound (cfg : SplitConfig)
    (hvalid : cfg.chunk_overlap < cfg.chunk_size)
    (seps : List (List Char)) (text : List Char)
    (cs : List (List Char)) (hok : split cfg seps text = .ok cs) :
    ∀ c ∈ cs, c.length ≤ cfg.chunk_size + cfg.chunk_overlap := by
  rw [split, if_pos hvalid] at hok
  cases hok
  exact mergeGo_length_le cfg.chunk_size cfg.chunk_overlap _ []
    (atomize_length_le cfg.chunk_size (by omega) seps text)
    (by simp) 

unseal splitOnSepGo hardCut in
/-- Witness for C1 (amended) at chunk_size = 5, chunk_overlap = 3: the
oversized chunk of the counterexample still satisfies the amended bound. -/
theorem C1_amended_size_bound_witness :
    ("a\n\nbbbbb".toList).length ≤ 5 + 3 :=
  C1_amended_size_bound ⟨5, 3⟩ (by decide) RECURSIVE_SEPARATORS
    "aaaaa\n\nbbbbb".toList
    (splitChunks 5 3 RECURSIVE_SEPARATORS "aaaaa\n\nbbbbb".toList) rfl
    "a\n\nbbbbb".toList (by decide)

/-- C2: for every valid configuration and input, concatenating all chunks
in order after removing the overlap region shared between each consecutive
pair yields exactly the original text, and the removed region is indeed
shared: the leading overlap of each chunk is a trailing slice of the chunk
before it. -/
theorem C2_roundtrip (cfg : SplitConfig)
    (hvalid : cfg.chunk_overlap < cfg.chunk_size)
    (seps : List (List Char)) (text : List Char)
    (cs : List (List Char)) (hok : split cfg seps text = .ok cs) :
    deoverlap cfg.chunk_overlap cs = text ∧
    List.Chain' (SharesOverlap cfg.chunk_overlap) cs := by
  rw [split, if_pos hvalid] at hok
  cases hok
  constructor
  · rw [splitChunks, deoverlap_mergeGo, atomize_flatten]
    simp
  · exact (mergeGo_chain cfg.chunk_size cfg.chunk_overlap _ []).1

/-- Witness for C2 on the spec's example scenario text with
chunk_size = 4, chunk_overlap = 1. -/
theorem C2_roundtrip_witness :
    deoverlap 1 (splitChunks 4 1 RECURSIVE_SEPARATORS "A.\n\nB.\n\nC.".toList) =
      "A.\n\nB.\n\nC.".toList ∧
    List.Chain' (SharesOverlap 1)
      (splitChunks 4 1 RECURSIVE_SEPARATORS "A.\n\nB.\n\nC.".toList) :=
  C2_roundtrip ⟨4, 1⟩ (by decide) RECURSIVE_SEPARATORS "A.\n\nB.\n\nC.".toList _ rfl

/-- C3: every configuration with chunk_overlap ≥ chunk_size or
chunk_size ≤ 0 is rejected with InvalidConfiguration, uniformly in the
input text (the result does not depend on the text, so the text is never
processed). -/
theorem C3_invalid_config_rejected (cfg : SplitConfig)
    (hbad : cfg.chunk_size ≤ cfg.chunk_overlap ∨ cfg.chunk_size = 0) :
    ∀ (seps : List (List Char)) (text : List Char),
      split cfg seps text = .error .invalidConfiguration := by
  intro seps text
  rw [split, if_neg (by omega)]

/-- Witness for C3 at the configuration chunk_size = 100,
chunk_overlap = 100 named by the claim. -/
theorem C3_invalid_config_rejected_witness :
    split ⟨100, 100⟩ RECURSIVE_SEPARATORS "abc".toList =
      .error .invalidConfiguration :=
  C3_invalid_config_rejected ⟨100, 100⟩ (Or.inl (by decide))
    RECURSIVE_SEPARATORS "abc".toList

end NovelistChunker

namespace NovelistChunker

/-- C4: every chunk produced by the chunker is a substring (contiguous
infix) of the input chapter, and the fixed prefix is attached only by the
wrapping in `split_text` (src/app.py:95), outside the chunker: each output
of `split_text` under the configured `SPLITTER_CHOICE` is `PREFIX` followed
by a substring of the chapter. -/
theorem C4_chunker_substring_prefix_agnostic (text : List Char) :
    (∀ (cfg : SplitConfig) (seps : List (List Char)) (cs : List (List Char)),
      split cfg seps text = .ok cs → ∀ c ∈ cs, c <:+: text) ∧
    (∀ out, split_text SPLITTER_CHOICE text = .ok out →
      ∀ c ∈ out, ∃ c', c' <:+: text ∧ c = PREFIX ++ c') := by
  constructor
  · intro cfg seps cs hok c hc
    rw [split] at hok
    split at hok
    · cases hok
      refine mergeGo_isInfix _ _ text _ [] ?_ c hc
      rw [List.nil_append, atomize_flatten]
    · exact (Except.noConfusion hok)
  · intro out hout c hc
    rw [split_text,
      if_pos (show SPLITTER_CHOICE = "Character".toList from rfl)] at hout
    cases hout
    obtain ⟨c', hc', hmap⟩ := List.mem_map.mp hc
    refine ⟨c', ?_, hmap.symm⟩
    refine mergeGo_isInfix _ _ text _ [] ?_ c' hc'
    rw [List.nil_append, splitOnSep_flatten]

unseal splitOnSepGo hardCut in
/-- Witness for C4 at the chapter "hi": the single emitted chunk is the
prefix followed by the chapter itself. -/
theorem C4_chunker_substring_prefix_agnostic_witness :
    ∃ c', c' <:+: "hi".toList ∧ PREFIX ++ "hi".toList = PREFIX ++ c' :=
  (C4_chunker_substring_prefix_agnostic "hi".toList).2 _ rfl
    (PREFIX ++ "hi".toList) (by decide)

/-- C5: for every valid configuration and every non-empty text whose
measured length is below chunk_size, split returns exactly one chunk and
that chunk is the input text. -/
theorem C5_short_text_single_chunk (cfg : SplitConfig)
    (hvalid : cfg.chunk_overlap < cfg.chunk_size)
    (seps : List (List Char)) (text : List Char)
    (hne : text ≠ []) (hshort : text.length < cfg.chunk_size) :
    split cfg seps text = .ok [text] := by
  rw [split, if_pos hvalid]
  unfold splitChunks
  rw [mergeGo_small cfg.chunk_size cfg.chunk_overlap
      (atomize cfg.chunk_size seps text) []
      (by rw [List.nil_append, atomize_flatten]; omega)]
  rw [List.nil_append, atomize_flatten, if_neg hne]

/-- Witness for C5: "hi there" with chunk_size 10, overlap 2 comes back as
the single chunk "hi there". -/
theorem C5_short_text_single_chunk_witness :
    split ⟨10, 2⟩ RECURSIVE_SEPARATORS "hi there".toList =
      .ok ["hi there".toList] :=
  C5_short_text_single_chunk ⟨10, 2⟩ (by decide) RECURSIVE_SEPARATORS
    "hi there".toList (by decide) (by decide)

/-- C6: for every valid configuration, split applied to the empty text
returns the empty sequence of chunks. -/
theorem C6_empty_input (cfg : SplitConfig)
    (hvalid : cfg.chunk_overlap < cfg.chunk_size)
    (seps : List (List Char)) :
    split cfg seps [] = .ok [] := by
  rw [split, if_pos hvalid]
  unfold splitChunks
  rw [mergeGo_small cfg.chunk_size cfg.chunk_overlap
      (atomize cfg.chunk_size seps []) []
      (by rw [List.nil_append, atomize_flatten]; simp)]
  rw [List.nil_append, atomize_flatten, if_pos rfl]

/-- Witness for C6 at the program's configuration 1950/10. -/
theorem C6_empty_input_witness :
    split ⟨1950, 10⟩ RECURSIVE_SEPARATORS [] = .ok [] :=
  C6_empty_input ⟨1950, 10⟩ (by decide) RECURSIVE_SEPARATORS

/-- C7: the claim "an unrecognized splitter-choice tag fails with
InvalidConfiguration at configuration time" is false on the code: for the
unrecognized tag "Bogus" the dispatch of `split_text` assigns no splitter
and the call `splitter.split_text(text)` at src/app.py:94 raises
`UnboundLocalError`, an unrelated error during processing, not an
InvalidConfiguration error. -/
theorem C7_claim_counterexample :
    split_text "Bogus".toList "sometext".toList =
      .error .unboundLocalError ∧
    split_text "Bogus".toList "sometext".toList ≠
      .error .invalidConfiguration := by
  constructor
  · rfl
  · intro h
    rw [show split_text "Bogus".toList "sometext".toList =
      .error .unboundLocalError from rfl] at h
    exact (SplitError.noConfusion (Except.error.inj h))

/-- C7 (amended): for every splitter-choice tag matching none of the three
dispatch branches of `split_text` ("Character", "RecursiveCharacter", or
containing the substring "Language."), the call fails with the
UnboundLocalError raised when the never-assigned `splitter` is used —
during processing, for every input text, rather than with an
InvalidConfiguration error at configuration time. -/
theorem C7_amended_unrecognized_choice (choice : List Char)
    (h1 : choice ≠ "Character".toList)
    (h2 : choice ≠ "RecursiveCharacter".toList)
    (h3 : containsSeq "Language.".toList choice = false) :
    ∀ text : List Char,
      split_text choice text = .error .unboundLocalError := by
  intro text
  rw [split_text, if_neg h1, if_neg h2,
    if_neg (show ¬ (containsSeq "Language.".toList choice = true) by
      rw [h3]; simp)]

/-- Witness for C7 (amended) at the tag "Bogus". -/
theorem C7_amended_unrecognized_choice_witness :
    split_text "Bogus".toList "x".toList = .error .unboundLocalError :=
  C7_amended_unrecognized_choice "Bogus".toList (by decide) (by decide)
    (by decide) "x".toList

/-- C8: split and split_text are deterministic: identical inputs always
yield identical output sequences.  (Both are pure functions of their
arguments in this model; `split_text` reads only the immutable module
constants of src/app.py.) -/
theorem C8_deterministic (cfg : SplitConfig) (seps : List (List Char))
    (choice t₁ t₂ : List Char) (heq : t₁ = t₂) :
    split cfg seps t₁ = split cfg seps t₂ ∧
    split_text choice t₁ = split_text choice t₂ := by
  rw [heq]
  exact ⟨rfl, rfl⟩

/-- Witness for C8 at a concrete repeated input. -/
theorem C8_deterministic_witness :
    split ⟨1950, 10⟩ RECURSIVE_SEPARATORS "a".toList =
      split ⟨1950, 10⟩ RECURSIVE_SEPARATORS "a".toList ∧
    split_text SPLITTER_CHOICE "a".toList =
      split_text SPLITTER_CHOICE "a".toList :=
  C8_deterministic ⟨1950, 10⟩ RECURSIVE_SEPARATORS SPLITTER_CHOICE
    "a".toList "a".toList rfl

/-- C9: for every valid configuration, split never fails on account of the
input text: for every text, including pathological ones, it returns the
chunk sequence of the recursive algorithm (whose totality, including the
hard-cut fallback, is established by these definitions being total Lean
functions). -/
theorem C9_never_fails_on_content (cfg : SplitConfig)
    (hvalid : cfg.chunk_overlap < cfg.chunk_size)
    (seps : List (List Char)) (text : List Char) :
    split cfg seps text =
      .ok (splitChunks cfg.chunk_size cfg.chunk_overlap seps text) := by
  rw [split, if_pos hvalid]

/-- Witness for C9 on a pathological whitespace-free text far exceeding the
chunk size 3. -/
theorem C9_never_fails_on_content_witness :
    split ⟨3, 1⟩ RECURSIVE_SEPARATORS "aaaaaaaaaaaaaaaaaaaa".toList =
      .ok (splitChunks 3 1 RECURSIVE_SEPARATORS "aaaaaaaaaaaaaaaaaaaa".toList) :=
  C9_never_fails_on_content ⟨3, 1⟩ (by decide) RECURSIVE_SEPARATORS
    "aaaaaaaaaaaaaaaaaaaa".toList

end NovelistChunker

namespace NovelistZip

/-- C10: `extract_chapters_from_zip` returns exactly one chapter per archive
member whose name ends in ".txt" case-insensitively (the chapter count
equals the count of such entries, so entries without the suffix contribute
no chapter), and the member names driving the extraction are the
lexicographically sorted rearrangement of the matching names rather than
the archive order. -/
theorem C10_zip_txt_chapters (entries : List ZipEntry) :
    (extract_chapters_from_zip entries).length =
      ((entries.map (fun e => e.name)).filter isTxtName).length ∧
    List.Sorted (· ≤ ·) (txtFiles entries) ∧
    (txtFiles entries).Perm
      ((entries.map (fun e => e.name)).filter isTxtName) ∧
    ∀ n ∈ txtFiles entries, isTxtName n = true := by
  have hperm : (txtFiles entries).Perm
      ((entries.map (fun e => e.name)).filter isTxtName) :=
    List.mergeSort_perm _ _
  refine ⟨?_, ?_, hperm, ?_⟩
  · unfold extract_chapters_from_zip
    rw [List.length_map]
    exact hperm.length_eq
  · exact List.sorted_mergeSort' _
  · intro n hn
    exact List.of_mem_filter (hperm.mem_iff.mp hn)

end NovelistZip
